import Mathlib

set_option maxRecDepth 100000

/-!
Verification development for `fix-field-names.py`, a batch rewriter that renames
camelCase identifiers to snake_case in TypeScript source files.

The script applies three ordered groups of regular-expression substitutions
(`PROPERTY_PATTERNS`, `OBJECT_PATTERNS`, `VARIABLE_PATTERNS`) to each file's
text with `re.sub`, counts matches with `re.findall`, and writes the file back
only when the text changed.  The directory walk filters files by the `.ts` and
`.tsx` extensions and aggregates per-file change counts.

Embedding conventions:
* Text is `List Char`.
* Every pattern in the script has one of three shapes: `\.lit\b` (member
  access), `\blit:` (object key), `\blit\b` (bare identifier), where `lit` is a
  literal identifier.  A pattern is embedded as a `Rule` carrying its shape,
  its literal, and the snake_case replacement core.
* `isWordChar` models the regex word class `\w` on the ASCII range
  (`[A-Za-z0-9_]`); texts are modeled over that range.
* `subAuxF` models the left-to-right, non-overlapping scan that `re.sub`
  performs: at each position the engine tries the pattern, replaces on success
  and resumes after the matched text, otherwise copies one character.  The
  `\b` assertions are checked against the original characters, which the scan
  carries along (`prev` is the original character just before the position).
  `re.findall` locates exactly the same non-overlapping matches, so the match
  count is read off the same scan.  The scan is indexed by fuel for structural
  recursion; every match consumes at least one character (all literals in the
  tables are nonempty), so fuel `s.length` is always sufficient.
-/

/-- Regex word character `\w` on the ASCII range: letters, digits, underscore. -/
def isWordChar (c : Char) : Bool :=
  c.isAlpha || c.isDigit || c = '_'

/-- Whether `\b` holds before a word character, given the previous original
character (`none` at the start of the text). -/
def boundaryBefore : Option Char → Bool
  | none => true
  | some c => !isWordChar c

/-- Whether `\b` holds after a word character, given the remaining text. -/
def boundaryAfter : List Char → Bool
  | [] => true
  | c :: _ => !isWordChar c

/-- Strip a literal from the front of a text, returning the remainder. -/
def stripLit : List Char → List Char → Option (List Char)
  | [], s => some s
  | _ :: _, [] => none
  | l :: ls, c :: cs => if c = l then stripLit ls cs else none

/-- The three lexical shapes of pattern used by the script. -/
inductive Shape where
  | propAccess
  | objectKey
  | bareIdent
deriving DecidableEq

/-- One substitution rule.  For literal `lit` and replacement core `repl`:
`propAccess` embeds `(r'\.lit\b', '.repl')`, `objectKey` embeds
`(r'\blit:', 'repl:')`, and `bareIdent` embeds `(r'\blit\b', 'repl')`. -/
structure Rule where
  shape : Shape
  lit : List Char
  repl : List Char
deriving DecidableEq

/-- Accept the remainder after a literal only if `\b` holds there. -/
def checkAfter (t : List Char) : Option (List Char) :=
  if boundaryAfter t then some t else none

/-- Accept the remainder after a literal only if it starts with the `:` the
object-key pattern requires, consuming it. -/
def checkColon (t : List Char) : Option (List Char) :=
  match t with
  | [] => none
  | c :: t1 => if c = ':' then some t1 else none

/-- Try to match rule `r` at the current position of the scan; on success
return the text remaining after the matched characters.  `propAccess` is
`\.lit\b`, `objectKey` is `\blit:`, `bareIdent` is `\blit\b`. -/
def matchRest (r : Rule) (prev : Option Char) (s : List Char) : Option (List Char) :=
  match r.shape with
  | Shape.propAccess =>
    match s with
    | [] => none
    | c :: s1 => if c = '.' then (stripLit r.lit s1).bind checkAfter else none
  | Shape.objectKey =>
    if boundaryBefore prev then (stripLit r.lit s).bind checkColon else none
  | Shape.bareIdent =>
    if boundaryBefore prev then (stripLit r.lit s).bind checkAfter else none

/-- Replacement text emitted for one match of `r`. -/
def emit (r : Rule) : List Char :=
  match r.shape with
  | Shape.propAccess => '.' :: r.repl
  | Shape.objectKey => r.repl ++ [':']
  | Shape.bareIdent => r.repl

/-- Last character of the matched original text; the scan resumes after it and
uses it for the next `\b` check. -/
def lastOfMatch (r : Rule) : Char :=
  match r.shape with
  | Shape.objectKey => ':'
  | _ => r.lit.getLastD '.'

/-- Number of original characters consumed by one match of `r`. -/
def consumedLen (r : Rule) : Nat :=
  match r.shape with
  | Shape.propAccess => r.lit.length + 1
  | Shape.objectKey => r.lit.length + 1
  | Shape.bareIdent => r.lit.length

/-- Fuel-indexed scan of `re.sub`: returns the rewritten text and the number of
non-overlapping matches replaced. -/
def subAuxF (r : Rule) : Nat → Option Char → List Char → List Char × Nat
  | 0, _, s => (s, 0)
  | _ + 1, _, [] => ([], 0)
  | fuel + 1, prev, c :: cs =>
    match matchRest r prev (c :: cs) with
    | some rest =>
      let p := subAuxF r fuel (some (lastOfMatch r)) rest
      (emit r ++ p.1, p.2 + 1)
    | none =>
      let p := subAuxF r fuel (some c) cs
      (c :: p.1, p.2)

/-- Model of `re.sub(pattern, replacement, content)` for one rule. -/
def re_sub (r : Rule) (s : List Char) : List Char :=
  (subAuxF r s.length none s).1

/-- Model of `len(re.findall(pattern, content))`: the count of the same
non-overlapping matches that `re.sub` replaces. -/
def re_findall_count (r : Rule) (s : List Char) : Nat :=
  (subAuxF r s.length none s).2

/-- Embed one `PROPERTY_PATTERNS` entry `(r'\.cam\b', '.snake')`. -/
def propRule (cam snake : String) : Rule :=
  ⟨Shape.propAccess, cam.toList, snake.toList⟩

/-- Embed one `OBJECT_PATTERNS` entry `(r'\bcam:', 'snake:')`. -/
def objRule (cam snake : String) : Rule :=
  ⟨Shape.objectKey, cam.toList, snake.toList⟩

/-- Embed one `VARIABLE_PATTERNS` entry `(r'\bcam\b', 'snake')`. -/
def varRule (cam snake : String) : Rule :=
  ⟨Shape.bareIdent, cam.toList, snake.toList⟩

/-- The member-access group, in source order. -/
def PROPERTY_PATTERNS : List Rule :=
  [ propRule "orderId" "order_id",
    propRule "brandId" "brand_id",
    propRule "clientId" "client_id",
    propRule "workspaceId" "workspace_id",
    propRule "userId" "user_id",
    propRule "designId" "design_id",
    propRule "templateId" "template_id",
    propRule "createdAt" "created_at",
    propRule "updatedAt" "updated_at",
    propRule "poNumber" "po_number",
    propRule "totalQty" "total_qty",
    propRule "isActive" "is_active",
    propRule "isDefault" "is_default",
    propRule "targetDeliveryDate" "target_delivery_date",
    propRule "routingSteps" "routing_steps",
    propRule "designAssets" "design_assets" ]

/-- The object-literal-key group, in source order. -/
def OBJECT_PATTERNS : List Rule :=
  [ objRule "orderId" "order_id",
    objRule "brandId" "brand_id",
    objRule "clientId" "client_id",
    objRule "workspaceId" "workspace_id",
    objRule "userId" "user_id",
    objRule "designId" "design_id",
    objRule "templateId" "template_id",
    objRule "createdAt" "created_at",
    objRule "updatedAt" "updated_at",
    objRule "poNumber" "po_number",
    objRule "totalQty" "total_qty",
    objRule "isActive" "is_active",
    objRule "isDefault" "is_default",
    objRule "targetDeliveryDate" "target_delivery_date",
    objRule "routingSteps" "routing_steps",
    objRule "designAssets" "design_assets",
    objRule "standardSpec" "standard_spec" ]

/-- The bare-identifier group, in source order. -/
def VARIABLE_PATTERNS : List Rule :=
  [ varRule "userId" "user_id",
    varRule "orderId" "order_id",
    varRule "brandId" "brand_id",
    varRule "clientId" "client_id",
    varRule "workspaceId" "workspace_id",
    varRule "designId" "design_id",
    varRule "templateId" "template_id",
    varRule "routingStepId" "routing_step_id",
    varRule "routeTemplateId" "route_template_id",
    varRule "standardSpec" "standard_spec",
    varRule "totalQty" "total_qty",
    varRule "targetDeliveryDate" "target_delivery_date" ]

/-- All rules in the order `fix_file` applies them. -/
def ALL_PATTERNS : List Rule :=
  PROPERTY_PATTERNS ++ OBJECT_PATTERNS ++ VARIABLE_PATTERNS

/-- One group loop of `fix_file`: for each pattern, substitute; if the text
changed, add the `re.findall` count taken on the pre-substitution text. -/
def applyGroup (rules : List Rule) (acc : List Char × Nat) : List Char × Nat :=
  rules.foldl
    (fun acc r =>
      let new_content := re_sub r acc.1
      if new_content = acc.1 then acc
      else (new_content, acc.2 + re_findall_count r acc.1))
    acc

/-- The pure rewrite performed by `fix_file` on one file's text: the three
groups in order, threading the text and the change counter. -/
def fix_content (content : List Char) : List Char × Nat :=
  applyGroup VARIABLE_PATTERNS
    (applyGroup OBJECT_PATTERNS
      (applyGroup PROPERTY_PATTERNS (content, 0)))

/-- Result of reading a file: its decoded text, or a caught read/decode error. -/
inductive ReadResult where
  | ok (content : List Char)
  | failed (err : List Char)

/-- Observable outcome of `fix_file` on one file: the returned change count,
whether a write to the file completed, and the `Error processing path: e`
line if the exception handler printed one. -/
structure FileOutcome where
  returned : Nat
  wrote : Bool
  logged : Option (List Char × List Char)
deriving DecidableEq

/-- Model of `fix_file(file_path)`.  The filesystem's behavior is passed
explicitly: `readRes` is what the read produced, and `writeErr` is the error a
write would raise (`none` for a successful write).  Any raised error is caught
by the `except` handler, which logs the path with the error and returns 0. -/
def fix_file (file_path : List Char) (readRes : ReadResult)
    (writeErr : Option (List Char)) : FileOutcome :=
  match readRes with
  | ReadResult.failed e => ⟨0, false, some (file_path, e)⟩
  | ReadResult.ok content =>
    let p := fix_content content
    if p.1 = content then ⟨p.2, false, none⟩
    else
      match writeErr with
      | some e => ⟨0, false, some (file_path, e)⟩
      | none => ⟨p.2, true, none⟩

/-- One file met by the directory walk, with its filesystem behavior. -/
structure WalkEntry where
  name : List Char
  readRes : ReadResult
  writeErr : Option (List Char)

/-- Model of `file.endswith(('.ts', '.tsx'))`. -/
def endsTsOrTsx (name : List Char) : Bool :=
  List.isSuffixOf ".ts".toList name || List.isSuffixOf ".tsx".toList name

/-- Counters and progress lines accumulated by `main`. -/
structure RunSummary where
  files_changed : Nat
  total_changes : Nat
  progress : List (List Char × Nat)
deriving DecidableEq

/-- The body of `main`'s walk loop for one file. -/
def mainStep (acc : RunSummary) (f : WalkEntry) : RunSummary :=
  if endsTsOrTsx f.name then
    let changes := (fix_file f.name f.readRes f.writeErr).returned
    if changes > 0 then
      ⟨acc.files_changed + 1, acc.total_changes + changes,
        acc.progress ++ [(f.name, changes)]⟩
    else acc
  else acc

/-- Model of `main`: the walk presents the files under the fixed root in
order; the loop filters by extension, runs `fix_file`, and aggregates. -/
def main_run (files : List WalkEntry) : RunSummary :=
  files.foldl mainStep ⟨0, 0, []⟩

/-- Rewrite as the specification words it: for each rule in order, replace all
non-overlapping matches and add the pre-replacement match count to a running
total, with no change-guard on the counter. -/
def rewrite_spec (rules : List Rule) (s : List Char) : List Char × Nat :=
  rules.foldl (fun acc r => (re_sub r acc.1, acc.2 + re_findall_count r acc.1)) (s, 0)

/-- The change count `fix_file` returns for one walked file. -/
def fileCount (f : WalkEntry) : Nat :=
  (fix_file f.name f.readRes f.writeErr).returned

/-- The walked files with a recognized extension and a nonzero returned count. -/
def changedFiles (files : List WalkEntry) : List WalkEntry :=
  (files.filter (fun f => endsTsOrTsx f.name)).filter (fun f => fileCount f ≠ 0)

/-- Driver behavior as the claim words it: exactly the files with a recognized
extension are processed, and exactly those with a nonzero returned count are
counted, summed, and reported with a progress line. -/
def mainSpec (files : List WalkEntry) : RunSummary :=
  ⟨(changedFiles files).length,
    ((changedFiles files).map fileCount).sum,
    (changedFiles files).map (fun f => (f.name, fileCount f))⟩

/-- The facts about each rule in the tables that the proofs use: the literal is
a nonempty word, the replacement is a nonempty word, and the replacement is
strictly longer than the literal. -/
@[reducible] def RuleOK (r : Rule) : Prop :=
  r.lit ≠ [] ∧ (∀ c ∈ r.lit, isWordChar c = true) ∧
    r.repl ≠ [] ∧ (∀ c ∈ r.repl, isWordChar c = true) ∧
    r.lit.length < r.repl.length

/-- Token view of a text, used by the idempotence proof: a text is a sequence
of single non-word separator characters and maximal nonempty runs of word
characters.  Every pattern of the script matches exactly one whole run
(together with a fixed adjacent separator for the `.`‑ and `:`‑anchored
shapes), so each substitution acts run by run. -/
inductive TList where
  | nil : TList
  | sep (c : Char) (rest : TList) : TList
  | run (w : List Char) (rest : TList) : TList

/-- A token list that does not begin with a run (used to state maximality). -/
def SepStart : TList → Prop
  | TList.run _ _ => False
  | _ => True

/-- Well-formedness of a token view: separators are non-word characters, runs
are nonempty lists of word characters, and a run is followed by a separator or
the end (maximality). -/
def Wf : TList → Prop
  | TList.nil => True
  | TList.sep c rest => isWordChar c = false ∧ Wf rest
  | TList.run w rest =>
      w ≠ [] ∧ (∀ c ∈ w, isWordChar c = true) ∧ SepStart rest ∧ Wf rest

/-- The text a token list denotes. -/
def detok : TList → List Char
  | TList.nil => []
  | TList.sep c rest => c :: detok rest
  | TList.run w rest => w ++ detok rest

/-- Push one character onto the front of a token view. -/
def consTok (c : Char) (ts : TList) : TList :=
  if isWordChar c then
    match ts with
    | TList.run w rest => TList.run (c :: w) rest
    | _ => TList.run [c] ts
  else TList.sep c ts

/-- The separator character immediately following, if any. -/
def headSepChar : TList → Option Char
  | TList.sep c _ => some c
  | _ => none

/-- Number of tokens (for strong induction). -/
def tsize : TList → Nat
  | TList.nil => 0
  | TList.sep _ rest => tsize rest + 1
  | TList.run _ rest => tsize rest + 1

/-- Whether rule `r` rewrites a run `w`, given the character just before the
run and the separator just after it: the run must equal the literal; a member
access additionally needs a `.` right before; an object key needs the `\b`
before and a `:` right after; a bare identifier needs the `\b` before (the
`\b` after always holds at the end of a maximal run). -/
def runFires (r : Rule) (prevC : Option Char) (w : List Char)
    (next : Option Char) : Bool :=
  decide (w = r.lit) &&
    (match r.shape with
     | Shape.propAccess => decide (prevC = some '.')
     | Shape.objectKey => boundaryBefore prevC && decide (next = some ':')
     | Shape.bareIdent => boundaryBefore prevC)

/-- One rule acting tokenwise: each run that fires is replaced by the rule's
replacement core; separators stay.  The second component counts the fired
runs.  (The character before a position after a run is a word character; under
well-formedness the next token is a separator, which never inspects it, so a
fixed word character is passed there.) -/
def ruleTok (r : Rule) : Option Char → TList → TList × Nat
  | _, TList.nil => (TList.nil, 0)
  | _, TList.sep c rest =>
    let p := ruleTok r (some c) rest
    (TList.sep c p.1, p.2)
  | prevC, TList.run w rest =>
    let p := ruleTok r (some 'a') rest
    if runFires r prevC w (headSepChar rest) then (TList.run r.repl p.1, p.2 + 1)
    else (TList.run w p.1, p.2)

/-- One rule acting on a single run value. -/
def stepRun (r : Rule) (prevC next : Option Char) (w : List Char) : List Char :=
  if runFires r prevC w next then r.repl else w

/-- A list of rules acting in order on a single run value. -/
def pipeRun (rs : List Rule) (prevC next : Option Char) (w : List Char) : List Char :=
  rs.foldl (fun v r => stepRun r prevC next v) w

/-- A list of rules acting tokenwise on a whole token view. -/
def mapRun (rs : List Rule) : Option Char → TList → TList
  | _, TList.nil => TList.nil
  | _, TList.sep c rest => TList.sep c (mapRun rs (some c) rest)
  | prevC, TList.run w rest =>
    TList.run (pipeRun rs prevC (headSepChar rest) w) (mapRun rs (some 'a') rest)

/-- The text part of applying the rules one after another, tokenwise. -/
def foldTok (rs : List Rule) (ts : TList) : TList :=
  rs.foldl (fun t r => (ruleTok r none t).1) ts

/-- C5: on `const userId = order.orderId;` the rewrite yields
`const user_id = order.order_id;` with change count 2. -/
theorem claim_C5 :
    fix_content "const userId = order.orderId;".toList =
      ("const user_id = order.order_id;".toList, 2) := by
  decide

/-- C6: on `{ isActive: true, standardSpec: x }` the rewrite yields
`{ is_active: true, standard_spec: x }` with change count 2. -/
theorem claim_C6 :
    fix_content "\x7b isActive: true, standardSpec: x \x7d".toList =
      ("\x7b is_active: true, standard_spec: x \x7d".toList, 2) := by
  decide

/-- C3: an occurrence of `.orderId2` is left unchanged by the full rewrite
(the trailing word character defeats `\b`), while an occurrence of `.orderId`
followed by a non-identifier character is rewritten to `.order_id`. -/
theorem claim_C3 :
    fix_content "a.orderId2 + b.orderId;".toList =
      ("a.orderId2 + b.order_id;".toList, 1) := by
  decide

/-- C4: adjacent bare identifiers `routingStepId` and `routeTemplateId` are
rewritten to `routing_step_id` and `route_template_id` respectively; no rule
(in particular none of the `templateId`-related ones) matches inside either. -/
theorem claim_C4 :
    fix_content "routingStepId routeTemplateId".toList =
      ("routing_step_id route_template_id".toList, 2) := by
  decide


/-- Stripping a literal succeeds only on texts that start with it. -/
theorem stripLit_some_imp (l : List Char) :
    ∀ s t, stripLit l s = some t → s = l ++ t := by
  induction l with
  | nil =>
    intro s t h
    simp [stripLit] at h
    simp [h]
  | cons a l ih =>
    intro s t h
    cases s with
    | nil => simp [stripLit] at h
    | cons c cs =>
      simp only [stripLit] at h
      by_cases hc : c = a
      · rw [if_pos hc] at h
        have := ih cs t h
        simp [hc, this]
      · rw [if_neg hc] at h
        exact absurd h (by simp)

/-- Stripping a literal from a text that starts with it returns the tail. -/
theorem stripLit_append (l t : List Char) : stripLit l (l ++ t) = some t := by
  induction l with
  | nil => simp [stripLit]
  | cons a l ih => simp [stripLit, ih]

/-- Characterization of the boundary-after check. -/
theorem checkAfter_eq_some (t u : List Char) :
    checkAfter t = some u ↔ boundaryAfter t = true ∧ u = t := by
  unfold checkAfter
  by_cases hb : boundaryAfter t = true
  · simp [hb, eq_comm]
  · simp [hb]

/-- Characterization of the colon check of the object-key shape. -/
theorem checkColon_eq_some (t u : List Char) :
    checkColon t = some u ↔ t = ':' :: u := by
  cases t with
  | nil => simp [checkColon]
  | cons c t1 =>
    by_cases hc : c = ':'
    · subst hc; simp [checkColon]
    · simp [checkColon, hc]

/-- A successful match consumes exactly `consumedLen r` characters. -/
theorem matchRest_some_len (r : Rule) (prev : Option Char) (s t : List Char)
    (h : matchRest r prev s = some t) : s.length = consumedLen r + t.length := by
  rcases r with ⟨shape, lit, repl⟩
  cases shape with
  | propAccess =>
    cases s with
    | nil => simp [matchRest] at h
    | cons c s1 =>
      simp only [matchRest] at h
      by_cases hc : c = '.'
      · rw [if_pos hc] at h
        rw [Option.bind_eq_some] at h
        obtain ⟨u, hs, hca⟩ := h
        rw [checkAfter_eq_some] at hca
        obtain ⟨-, rfl⟩ := hca
        have hu := stripLit_some_imp lit s1 t hs
        subst hu
        simp [consumedLen]
        omega
      · rw [if_neg hc] at h
        exact absurd h (by simp)
  | objectKey =>
    simp only [matchRest] at h
    by_cases hbb : boundaryBefore prev = true
    · rw [if_pos hbb] at h
      rw [Option.bind_eq_some] at h
      obtain ⟨u, hs, hcc⟩ := h
      rw [checkColon_eq_some] at hcc
      subst hcc
      have hu := stripLit_some_imp lit s (':' :: t) hs
      subst hu
      simp [consumedLen]
      omega
    · rw [if_neg hbb] at h
      exact absurd h (by simp)
  | bareIdent =>
    simp only [matchRest] at h
    by_cases hbb : boundaryBefore prev = true
    · rw [if_pos hbb] at h
      rw [Option.bind_eq_some] at h
      obtain ⟨u, hs, hca⟩ := h
      rw [checkAfter_eq_some] at hca
      obtain ⟨-, rfl⟩ := hca
      have hu := stripLit_some_imp lit s t hs
      subst hu
      simp [consumedLen]
    · rw [if_neg hbb] at h
      exact absurd h (by simp)

/-- With a nonempty literal, every match consumes at least one character. -/
theorem consumedLen_pos (r : Rule) (hlit : r.lit ≠ []) : 1 ≤ consumedLen r := by
  have hp : 0 < r.lit.length := List.length_pos.mpr hlit
  cases hsh : r.shape <;> simp [consumedLen, hsh] <;> omega

/-- With a nonempty literal, a match strictly shortens the remaining text. -/
theorem matchRest_some_lt (r : Rule) (hlit : r.lit ≠ []) (prev : Option Char)
    (s t : List Char) (h : matchRest r prev s = some t) : t.length < s.length := by
  have h1 := matchRest_some_len r prev s t h
  have h2 := consumedLen_pos r hlit
  omega

/-- A replacement longer than its literal makes the emitted text longer than
the consumed text. -/
theorem emit_length_gt (r : Rule) (hgrow : r.lit.length < r.repl.length) :
    consumedLen r + 1 ≤ (emit r).length := by
  cases hsh : r.shape <;> simp [emit, consumedLen, hsh] <;> omega

/-- A scan that replaced no match copied the text unchanged. -/
theorem subAuxF_count_zero (r : Rule) :
    ∀ fuel prev s, (subAuxF r fuel prev s).2 = 0 → (subAuxF r fuel prev s).1 = s := by
  intro fuel
  induction fuel with
  | zero => intro prev s _; rfl
  | succ n ih =>
    intro prev s h
    cases s with
    | nil => rfl
    | cons c cs =>
      cases hm : matchRest r prev (c :: cs) with
      | some rest => simp [subAuxF, hm] at h
      | none =>
        simp only [subAuxF, hm] at h ⊢
        exact congrArg (c :: ·) (ih _ _ h)

/-- Each replaced match lengthens the text by at least one character. -/
theorem subAuxF_len_ge (r : Rule) (hlit : r.lit ≠ [])
    (hgrow : r.lit.length < r.repl.length) :
    ∀ fuel prev s, s.length ≤ fuel →
      s.length + (subAuxF r fuel prev s).2 ≤ (subAuxF r fuel prev s).1.length := by
  intro fuel
  induction fuel with
  | zero => intro prev s _; simp [subAuxF]
  | succ n ih =>
    intro prev s hs
    cases s with
    | nil => simp [subAuxF]
    | cons c cs =>
      cases hm : matchRest r prev (c :: cs) with
      | some rest =>
        have hlen := matchRest_some_len r prev (c :: cs) rest hm
        have hrest : rest.length ≤ n := by
          have hlt := matchRest_some_lt r hlit prev (c :: cs) rest hm
          simp only [List.length_cons] at hlt hs
          omega
        have hih := ih (some (lastOfMatch r)) rest hrest
        have hem := emit_length_gt r hgrow
        simp only [List.length_cons] at hlen hs
        simp only [subAuxF, hm, List.length_append, List.length_cons]
        omega
      | none =>
        have hih := ih (some c) cs (by simp only [List.length_cons] at hs; omega)
        simp only [subAuxF, hm, List.length_cons]
        omega

/-- If a rule's pattern replaced no match, the substitution is the identity. -/
theorem re_sub_self_of_count (r : Rule) (s : List Char)
    (h : re_findall_count r s = 0) : re_sub r s = s :=
  subAuxF_count_zero r s.length none s h

/-- If the substitution left the text unchanged, it replaced no match. -/
theorem count_zero_of_re_sub_self (r : Rule) (hlit : r.lit ≠ [])
    (hgrow : r.lit.length < r.repl.length) (s : List Char)
    (h : re_sub r s = s) : re_findall_count r s = 0 := by
  have := subAuxF_len_ge r hlit hgrow s.length none s le_rfl
  have hl : (subAuxF r s.length none s).1.length = s.length := by
    rw [show (subAuxF r s.length none s).1 = re_sub r s from rfl, h]
  unfold re_findall_count
  omega

/-- Every rule in the three tables satisfies `RuleOK`. -/
theorem all_rules_ok : ∀ r ∈ ALL_PATTERNS, RuleOK r := by decide

/-- Peeling one rule off a group application. -/
theorem applyGroup_cons (r : Rule) (rs : List Rule) (t : List Char) (n0 : Nat) :
    applyGroup (r :: rs) (t, n0) =
      applyGroup rs
        (if re_sub r t = t then (t, n0)
         else (re_sub r t, n0 + re_findall_count r t)) := rfl

/-- A group application over a concatenation is the two applications in order. -/
theorem applyGroup_append (xs ys : List Rule) (acc : List Char × Nat) :
    applyGroup (xs ++ ys) acc = applyGroup ys (applyGroup xs acc) := by
  simp only [applyGroup, List.foldl_append]

/-- The full rewrite is the single group application over all rules in order. -/
theorem fix_content_eq_all (s : List Char) :
    fix_content s = applyGroup ALL_PATTERNS (s, 0) := by
  simp only [fix_content, ALL_PATTERNS, applyGroup_append]

/-- Counter and length invariants of a group application: the counter never
decreases, the text grows by at least the added count, and an unchanged
counter means unchanged text. -/
theorem applyGroup_inv :
    ∀ rules : List Rule, (∀ r ∈ rules, RuleOK r) → ∀ t n0,
      n0 ≤ (applyGroup rules (t, n0)).2 ∧
      t.length + ((applyGroup rules (t, n0)).2 - n0) ≤ (applyGroup rules (t, n0)).1.length ∧
      ((applyGroup rules (t, n0)).2 = n0 → (applyGroup rules (t, n0)).1 = t) := by
  intro rules
  induction rules with
  | nil => intro _ t n0; simp [applyGroup]
  | cons r rs ih =>
    intro hok t n0
    have hrs : ∀ x ∈ rs, RuleOK x := fun x hx => hok x (List.mem_cons_of_mem r hx)
    obtain ⟨hlit, -, -, -, hgrow⟩ := hok r (List.mem_cons_self r rs)
    rw [applyGroup_cons]
    by_cases hnew : re_sub r t = t
    · rw [if_pos hnew]
      exact ih hrs t n0
    · rw [if_neg hnew]
      have hcnt : re_findall_count r t ≠ 0 := fun h0 =>
        hnew (re_sub_self_of_count r t h0)
      have hge : t.length + re_findall_count r t ≤ (re_sub r t).length :=
        subAuxF_len_ge r hlit hgrow t.length none t le_rfl
      obtain ⟨h1, h2, h3⟩ := ih hrs (re_sub r t) (n0 + re_findall_count r t)
      exact ⟨by omega, by omega, fun habs => absurd habs (by omega)⟩

/-- The guarded counter update of the code agrees with the unguarded running
sum of the specification: a substitution that leaves the text unchanged
contributes count 0. -/
theorem applyGroup_eq_spec :
    ∀ rules : List Rule, (∀ r ∈ rules, RuleOK r) → ∀ t n0,
      applyGroup rules (t, n0) =
        rules.foldl
          (fun acc r => (re_sub r acc.1, acc.2 + re_findall_count r acc.1)) (t, n0) := by
  intro rules
  induction rules with
  | nil => intro _ t n0; rfl
  | cons r rs ih =>
    intro hok t n0
    have hrs : ∀ x ∈ rs, RuleOK x := fun x hx => hok x (List.mem_cons_of_mem r hx)
    obtain ⟨hlit, -, -, -, hgrow⟩ := hok r (List.mem_cons_self r rs)
    rw [applyGroup_cons, List.foldl_cons]
    show _ =
      List.foldl (fun acc r => (re_sub r acc.1, acc.2 + re_findall_count r acc.1))
        (re_sub r t, n0 + re_findall_count r t) rs
    by_cases hnew : re_sub r t = t
    · rw [if_pos hnew]
      have h0 : re_findall_count r t = 0 := count_zero_of_re_sub_self r hlit hgrow t hnew
      rw [ih hrs t n0, hnew, h0]
      simp
    · rw [if_neg hnew]
      exact ih hrs (re_sub r t) (n0 + re_findall_count r t)

/-- If no rule's pattern matches the text, the whole group application leaves
text and counter untouched. -/
theorem applyGroup_id :
    ∀ rules : List Rule, ∀ t n0, (∀ r ∈ rules, re_findall_count r t = 0) →
      applyGroup rules (t, n0) = (t, n0) := by
  intro rules
  induction rules with
  | nil => intro t n0 _; rfl
  | cons r rs ih =>
    intro t n0 h
    have hnew : re_sub r t = t := re_sub_self_of_count r t (h r (List.mem_cons_self r rs))
    rw [applyGroup_cons, if_pos hnew]
    exact ih t n0 (fun x hx => h x (List.mem_cons_of_mem r hx))

/-- C2: the change count returned for a text equals the total number of
non-overlapping pattern matches replaced, summed over every rule of the three
groups in their fixed order, each rule's matches being counted on the text as
it stands after all earlier rules. -/
theorem claim_C2 (s : List Char) :
    fix_content s = rewrite_spec ALL_PATTERNS s := by
  rw [fix_content_eq_all]
  exact applyGroup_eq_spec ALL_PATTERNS all_rules_ok s 0

/-- C10: the change count is nonzero exactly when the rewritten text differs
from the original, and a write occurs exactly when the count is nonzero. -/
theorem claim_C10 (file_path s : List Char) :
    ((fix_content s).2 ≠ 0 ↔ (fix_content s).1 ≠ s) ∧
    ((fix_file file_path (ReadResult.ok s) none).wrote = true ↔ (fix_content s).2 ≠ 0) := by
  have H := applyGroup_inv ALL_PATTERNS all_rules_ok s 0
  rw [← fix_content_eq_all] at H
  obtain ⟨-, h2, h3⟩ := H
  have hiff : (fix_content s).2 ≠ 0 ↔ (fix_content s).1 ≠ s := by
    constructor
    · intro hne hEq
      have : (fix_content s).1.length = s.length := by rw [hEq]
      omega
    · intro hne h0
      exact hne (h3 h0)
  refine ⟨hiff, ?_⟩
  by_cases hp : (fix_content s).1 = s
  · have h0 : (fix_content s).2 = 0 := by
      by_contra hc
      exact (hiff.mp hc) hp
    simp [fix_file, hp, h0]
  · simp [fix_file, hp, hiff.mpr hp]

/-- C7: if no rule's pattern matches the text, the rewrite returns it
unchanged with change count 0 and no write occurs; and in general no write
occurs whenever the rewritten text equals the original. -/
theorem claim_C7 :
    (∀ (file_path s : List Char) (writeErr : Option (List Char)),
        (∀ r ∈ ALL_PATTERNS, re_findall_count r s = 0) →
        fix_content s = (s, 0) ∧
          (fix_file file_path (ReadResult.ok s) writeErr).wrote = false) ∧
    (∀ (file_path s : List Char) (writeErr : Option (List Char)),
        (fix_content s).1 = s →
        (fix_file file_path (ReadResult.ok s) writeErr).wrote = false) := by
  constructor
  · intro fp s w h
    have hfix : fix_content s = (s, 0) := by
      rw [fix_content_eq_all]
      exact applyGroup_id ALL_PATTERNS s 0 h
    have hp : (fix_content s).1 = s := by rw [hfix]
    exact ⟨hfix, by simp [fix_file, hp]⟩
  · intro fp s w hp
    simp [fix_file, hp]

/-- Witness for C7 at concrete inputs. -/
theorem claim_C7_witness :
    (fix_content "hello world".toList = ("hello world".toList, 0) ∧
      (fix_file "a.ts".toList (ReadResult.ok "hello world".toList) none).wrote = false) ∧
    (fix_file "b.ts".toList (ReadResult.ok "notes".toList)
        (some "disk full".toList)).wrote = false :=
  ⟨claim_C7.1 "a.ts".toList "hello world".toList none (by decide),
   claim_C7.2 "b.ts".toList "notes".toList (some "disk full".toList) (by decide)⟩

/-- C8: a caught read or decode failure is logged with the path and yields 0;
a caught write failure is logged with the path and yields 0; and a file whose
processing returned 0 leaves the walk state untouched, so the walk continues
with the remaining files exactly as if that file were absent. -/
theorem claim_C8 :
    (∀ (file_path err : List Char) (writeErr : Option (List Char)),
        fix_file file_path (ReadResult.failed err) writeErr =
          ⟨0, false, some (file_path, err)⟩) ∧
    (∀ (file_path s err : List Char),
        (fix_content s).1 ≠ s →
        fix_file file_path (ReadResult.ok s) (some err) =
          ⟨0, false, some (file_path, err)⟩) ∧
    (∀ (f : WalkEntry) (rest : List WalkEntry),
        (fix_file f.name f.readRes f.writeErr).returned = 0 →
        main_run (f :: rest) = main_run rest) := by
  refine ⟨fun fp e w => rfl, ?_, ?_⟩
  · intro fp s e hne
    simp [fix_file, hne]
  · intro f rest h0
    show (f :: rest).foldl mainStep ⟨0, 0, []⟩ = main_run rest
    rw [List.foldl_cons]
    have hstep : mainStep ⟨0, 0, []⟩ f = ⟨0, 0, []⟩ := by
      simp [mainStep, h0]
    rw [hstep]
    rfl

/-- Witness for C8 at concrete inputs. -/
theorem claim_C8_witness :
    fix_file "a.ts".toList (ReadResult.failed "boom".toList) none =
      ⟨0, false, some ("a.ts".toList, "boom".toList)⟩ ∧
    fix_file "b.ts".toList (ReadResult.ok "x.orderId;".toList)
        (some "denied".toList) =
      ⟨0, false, some ("b.ts".toList, "denied".toList)⟩ ∧
    main_run [⟨"c.ts".toList, ReadResult.failed "bad".toList, none⟩] = main_run [] :=
  ⟨claim_C8.1 "a.ts".toList "boom".toList none,
   claim_C8.2.1 "b.ts".toList "x.orderId;".toList "denied".toList (by decide),
   claim_C8.2.2 ⟨"c.ts".toList, ReadResult.failed "bad".toList, none⟩ [] (by decide)⟩

/-- Unrolling the walk loop: starting from any accumulator, the loop adds one
to the files-changed counter, the change count to the total, and one progress
line, for exactly the extension-matching files with nonzero count. -/
theorem main_run_spec :
    ∀ (files : List WalkEntry) (acc : RunSummary),
      files.foldl mainStep acc =
        ⟨acc.files_changed + (changedFiles files).length,
          acc.total_changes + ((changedFiles files).map fileCount).sum,
          acc.progress ++ (changedFiles files).map (fun f => (f.name, fileCount f))⟩ := by
  intro files
  induction files with
  | nil =>
    intro acc
    cases acc
    simp [changedFiles]
  | cons f fs ih =>
    intro acc
    rw [List.foldl_cons]
    by_cases hext : endsTsOrTsx f.name = true
    · by_cases hcnt : (fix_file f.name f.readRes f.writeErr).returned > 0
      · have hne : fileCount f ≠ 0 := by
          simp only [fileCount]
          omega
        have hstep : mainStep acc f =
            ⟨acc.files_changed + 1, acc.total_changes + fileCount f,
              acc.progress ++ [(f.name, fileCount f)]⟩ := by
          simp [mainStep, hext, hcnt, fileCount]
        have hch : changedFiles (f :: fs) = f :: changedFiles fs := by
          simp [changedFiles, List.filter_cons, hext, hne]
        rw [hstep, ih, hch]
        simp only [RunSummary.mk.injEq, List.length_cons, List.map_cons, List.sum_cons]
        refine ⟨by omega, by omega, by simp⟩
      · have h0 : fileCount f = 0 := by
          simp only [fileCount]
          omega
        have hstep : mainStep acc f = acc := by
          simp [mainStep, hext, hcnt]
        have hch : changedFiles (f :: fs) = changedFiles fs := by
          simp [changedFiles, List.filter_cons, hext, h0]
        rw [hstep, ih, hch]
    · have hstep : mainStep acc f = acc := by
        simp [mainStep, hext]
      have hch : changedFiles (f :: fs) = changedFiles fs := by
        simp [changedFiles, List.filter_cons, hext]
      rw [hstep, ih, hch]

/-- C9: the walk processes exactly the `.ts`/`.tsx` files; each processed file
with nonzero returned count bumps the files-changed counter by one, adds its
count to the total, and emits one progress line; zero-change files and files
with other extensions affect nothing. -/
theorem claim_C9 (files : List WalkEntry) : main_run files = mainSpec files := by
  show files.foldl mainStep ⟨0, 0, []⟩ = mainSpec files
  rw [main_run_spec files ⟨0, 0, []⟩]
  simp [mainSpec]

/-- Consing a character commutes with `detok`. -/
theorem detok_consTok (c : Char) (ts : TList) :
    detok (consTok c ts) = c :: detok ts := by
  by_cases h : isWordChar c
  · cases ts <;> simp [consTok, h, detok]
  · simp [consTok, h, detok]

/-- Consing a character preserves well-formedness. -/
theorem wf_consTok (c : Char) (ts : TList) (hwf : Wf ts) : Wf (consTok c ts) := by
  by_cases h : isWordChar c = true
  · cases ts with
    | nil => simp [consTok, h, Wf, SepStart]
    | sep c2 rest =>
      simp only [consTok, h, if_true]
      exact ⟨by simp, by simp [h], by simp [SepStart], hwf⟩
    | run w rest =>
      simp only [consTok, h, if_true]
      obtain ⟨hne, hw, hss, hr⟩ := hwf
      exact ⟨by simp, by
        intro x hx
        rcases List.mem_cons.mp hx with rfl | hx2
        · exact h
        · exact hw x hx2, hss, hr⟩
  · have h2 : isWordChar c = false := by
      cases hb : isWordChar c
      · rfl
      · exact absurd hb h
    simp only [consTok, h2, Bool.false_eq_true, if_false]
    exact ⟨h2, hwf⟩

/-- Every text has a well-formed token view. -/
theorem exists_tok (s : List Char) : ∃ ts, Wf ts ∧ detok ts = s := by
  induction s with
  | nil => exact ⟨TList.nil, trivial, rfl⟩
  | cons c s1 ih =>
    obtain ⟨ts, hwf, hd⟩ := ih
    exact ⟨consTok c ts, wf_consTok c ts hwf, by rw [detok_consTok, hd]⟩

/-- After a maximal run, the remaining text starts at a word boundary. -/
theorem boundaryAfter_detok (ts : TList) (hss : SepStart ts) (hwf : Wf ts) :
    boundaryAfter (detok ts) = true := by
  cases ts with
  | nil => rfl
  | sep c rest =>
    obtain ⟨hc, -⟩ := hwf
    simp [detok, boundaryAfter, hc]
  | run w rest => exact absurd hss (by simp [SepStart])

/-- Tokens after a run never inspect the previous character. -/
theorem ruleTok_sepStart (r : Rule) (ts : TList) (hss : SepStart ts)
    (p q : Option Char) : ruleTok r p ts = ruleTok r q ts := by
  cases ts with
  | nil => rfl
  | sep c rest => rfl
  | run w rest => exact absurd hss (by simp [SepStart])

/-- A nonempty all-word literal cannot be stripped from a text that starts
with a non-word character. -/
theorem stripLit_cons_none (lit : List Char) (hlitne : lit ≠ [])
    (hlitw : ∀ x ∈ lit, isWordChar x = true) (c : Char)
    (hc : isWordChar c = false) (cs : List Char) :
    stripLit lit (c :: cs) = none := by
  cases lit with
  | nil => exact absurd rfl hlitne
  | cons a ls =>
    have ha : isWordChar a = true := hlitw a (by simp)
    have : c ≠ a := by
      intro h
      rw [h, ha] at hc
      exact absurd hc (by simp)
    simp [stripLit, this]

/-- A nonempty all-word literal cannot be stripped from a text that starts at
a word boundary. -/
theorem stripLit_none_boundary (lit : List Char) (hlitne : lit ≠ [])
    (hlitw : ∀ x ∈ lit, isWordChar x = true) (s : List Char)
    (hb : boundaryAfter s = true) : stripLit lit s = none := by
  cases s with
  | nil =>
    cases lit with
    | nil => exact absurd rfl hlitne
    | cons a ls => rfl
  | cons c cs =>
    have hc : isWordChar c = false := by
      simp [boundaryAfter] at hb
      exact hb
    exact stripLit_cons_none lit hlitne hlitw c hc cs

/-- Splitting an equation `lit ++ t = w ++ u` where `lit` is all word
characters and `u` starts at a word boundary: either the literal is the whole
run, or it is a proper front part of the run and the remainder starts with a
word character of the run. -/
theorem append_eq_word_analysis :
    ∀ (lit w t u : List Char),
      lit ++ t = w ++ u →
      (∀ c ∈ lit, isWordChar c = true) →
      boundaryAfter u = true →
      (lit = w ∧ t = u) ∨ (∃ d ds, w = lit ++ d :: ds ∧ t = (d :: ds) ++ u) := by
  intro lit
  induction lit with
  | nil =>
    intro w t u h _ _
    cases w with
    | nil => left; exact ⟨rfl, by simpa using h⟩
    | cons b w1 => right; exact ⟨b, w1, by simp, by simpa using h⟩
  | cons a l ih =>
    intro w t u h hl hu
    cases w with
    | nil =>
      exfalso
      simp only [List.nil_append] at h
      rw [← h] at hu
      simp only [List.cons_append, boundaryAfter] at hu
      have ha := hl a (by simp)
      rw [ha] at hu
      exact absurd hu (by simp)
    | cons b w1 =>
      simp only [List.cons_append, List.cons.injEq] at h
      obtain ⟨rfl, h2⟩ := h
      have hl' : ∀ c ∈ l, isWordChar c = true := fun c hc => hl c (by simp [hc])
      rcases ih w1 t u h2 hl' hu with ⟨he, ht⟩ | ⟨d, ds, hw2, ht⟩
      · left
        exact ⟨by rw [he], ht⟩
      · right
        exact ⟨d, ds, by simp [hw2], ht⟩

/-- No match can start between a word character and a word character. -/
theorem matchRest_word_word (r : Rule) (p c : Char) (hp : isWordChar p = true)
    (hc : isWordChar c = true) (cs : List Char) :
    matchRest r (some p) (c :: cs) = none := by
  have hbb : boundaryBefore (some p) = false := by simp [boundaryBefore, hp]
  have hcdot : ¬(c = '.') := by
    intro h
    rw [h] at hc
    exact absurd hc (by decide)
  cases hsh : r.shape
  · simp [matchRest, hsh, hcdot]
  · simp [matchRest, hsh, hbb]
  · simp [matchRest, hsh, hbb]

/-- A non-member-access rule cannot match at a non-word character. -/
theorem matchRest_nonword_nonprop (r : Rule) (hsh : r.shape ≠ Shape.propAccess)
    (hlitne : r.lit ≠ []) (hlitw : ∀ x ∈ r.lit, isWordChar x = true)
    (prev : Option Char) (c : Char) (hc : isWordChar c = false) (cs : List Char) :
    matchRest r prev (c :: cs) = none := by
  have hs := stripLit_cons_none r.lit hlitne hlitw c hc cs
  cases hsh2 : r.shape
  · exact absurd hsh2 hsh
  · simp [matchRest, hsh2, hs]
  · simp [matchRest, hsh2, hs]

/-- A member-access rule cannot match at a character other than `.`. -/
theorem matchRest_prop_not_dot (r : Rule) (hsh : r.shape = Shape.propAccess)
    (prev : Option Char) (c : Char) (hc : ¬(c = '.')) (cs : List Char) :
    matchRest r prev (c :: cs) = none := by
  simp [matchRest, hsh, hc]

/-- A member-access rule cannot match at the head of a run. -/
theorem matchRest_run_prop (r : Rule) (hsh : r.shape = Shape.propAccess)
    (prev : Option Char) (w u : List Char) (hwne : w ≠ [])
    (hww : ∀ c ∈ w, isWordChar c = true) :
    matchRest r prev (w ++ u) = none := by
  cases w with
  | nil => exact absurd rfl hwne
  | cons c w1 =>
    have hc : isWordChar c = true := hww c (by simp)
    have hcdot : ¬(c = '.') := by
      intro h
      rw [h] at hc
      exact absurd hc (by decide)
    rw [List.cons_append]
    exact matchRest_prop_not_dot r hsh prev c hcdot (w1 ++ u)

/-- Bare-identifier match at the head of a maximal run: it succeeds exactly
when the run is the literal and a word boundary precedes. -/
theorem matchRest_run_var (r : Rule) (hsh : r.shape = Shape.bareIdent)
    (hlitne : r.lit ≠ []) (hlitw : ∀ x ∈ r.lit, isWordChar x = true)
    (prev : Option Char) (w u : List Char)
    (hww : ∀ c ∈ w, isWordChar c = true) (hu : boundaryAfter u = true) :
    matchRest r prev (w ++ u) =
      if boundaryBefore prev = true ∧ w = r.lit then some u else none := by
  simp only [matchRest, hsh]
  by_cases hbb : boundaryBefore prev = true
  · rw [if_pos hbb]
    by_cases hwl : w = r.lit
    · rw [if_pos ⟨hbb, hwl⟩]
      rw [← hwl, stripLit_append]
      simp [checkAfter, hu]
    · rw [if_neg (fun h => hwl h.2)]
      cases hs : stripLit r.lit (w ++ u) with
      | none => rfl
      | some t =>
        have heq := stripLit_some_imp r.lit (w ++ u) t hs
        rcases append_eq_word_analysis r.lit w t u heq.symm hlitw hu with
          ⟨he, -⟩ | ⟨d, ds, hw2, ht⟩
        · exact absurd he.symm hwl
        · have hd : isWordChar d = true := hww d (by simp [hw2])
          subst ht
          simp [checkAfter, boundaryAfter, hd]
  · rw [if_neg hbb, if_neg (fun h => hbb h.1)]

/-- Object-key match at the head of a maximal run: it succeeds exactly when
the run is the literal, a word boundary precedes, and a `:` follows. -/
theorem matchRest_run_obj (r : Rule) (hsh : r.shape = Shape.objectKey)
    (hlitne : r.lit ≠ []) (hlitw : ∀ x ∈ r.lit, isWordChar x = true)
    (prev : Option Char) (w u : List Char)
    (hww : ∀ c ∈ w, isWordChar c = true) (hu : boundaryAfter u = true) :
    matchRest r prev (w ++ u) =
      if boundaryBefore prev = true ∧ w = r.lit then checkColon u else none := by
  simp only [matchRest, hsh]
  by_cases hbb : boundaryBefore prev = true
  · rw [if_pos hbb]
    by_cases hwl : w = r.lit
    · rw [if_pos ⟨hbb, hwl⟩]
      rw [← hwl, stripLit_append]
      rfl
    · rw [if_neg (fun h => hwl h.2)]
      cases hs : stripLit r.lit (w ++ u) with
      | none => rfl
      | some t =>
        have heq := stripLit_some_imp r.lit (w ++ u) t hs
        rcases append_eq_word_analysis r.lit w t u heq.symm hlitw hu with
          ⟨he, -⟩ | ⟨d, ds, hw2, ht⟩
        · exact absurd he.symm hwl
        · have hd : isWordChar d = true := hww d (by simp [hw2])
          have hdc : ¬(d = ':') := by
            intro h
            rw [h] at hd
            exact absurd hd (by decide)
          subst ht
          simp [checkColon, hdc]
  · rw [if_neg hbb, if_neg (fun h => hbb h.1)]

/-- Member-access match at a `.` followed by a maximal run: it succeeds
exactly when the run is the literal. -/
theorem matchRest_prop_dot (r : Rule) (hsh : r.shape = Shape.propAccess)
    (hlitne : r.lit ≠ []) (hlitw : ∀ x ∈ r.lit, isWordChar x = true)
    (prev : Option Char) (w u : List Char)
    (hww : ∀ c ∈ w, isWordChar c = true) (hu : boundaryAfter u = true) :
    matchRest r prev ('.' :: (w ++ u)) =
      if w = r.lit then some u else none := by
  simp only [matchRest, hsh, if_pos rfl]
  by_cases hwl : w = r.lit
  · rw [if_pos hwl, ← hwl, stripLit_append]
    simp [checkAfter, hu]
  · rw [if_neg hwl]
    cases hs : stripLit r.lit (w ++ u) with
    | none => rfl
    | some t =>
      have heq := stripLit_some_imp r.lit (w ++ u) t hs
      rcases append_eq_word_analysis r.lit w t u heq.symm hlitw hu with
        ⟨he, -⟩ | ⟨d, ds, hw2, ht⟩
      · exact absurd he.symm hwl
      · have hd : isWordChar d = true := hww d (by simp [hw2])
        subst ht
        simp [checkAfter, boundaryAfter, hd]

/-- Unfolding the scan at a successful match. -/
theorem subAuxF_match (r : Rule) (m : Nat) (prev : Option Char)
    (s rest : List Char) (hs : s ≠ []) (hm : matchRest r prev s = some rest) :
    subAuxF r (m + 1) prev s =
      (emit r ++ (subAuxF r m (some (lastOfMatch r)) rest).1,
        (subAuxF r m (some (lastOfMatch r)) rest).2 + 1) := by
  cases s with
  | nil => exact absurd rfl hs
  | cons c cs => simp only [subAuxF, hm]

/-- Unfolding the scan at a failed match. -/
theorem subAuxF_skip (r : Rule) (m : Nat) (prev : Option Char) (c : Char)
    (cs : List Char) (hm : matchRest r prev (c :: cs) = none) :
    subAuxF r (m + 1) prev (c :: cs) =
      (c :: (subAuxF r m (some c) cs).1, (subAuxF r m (some c) cs).2) := by
  simp only [subAuxF, hm]

/-- The fallback of `getLastD` is irrelevant for nonempty lists. -/
theorem getLastD_irrel (l : List Char) (h : l ≠ []) (d1 d2 : Char) :
    l.getLastD d1 = l.getLastD d2 := by
  cases l with
  | nil => exact absurd rfl h
  | cons x xs => rfl

/-- Walking a nonempty run with no match at its head: the scan copies the
whole run and continues after it with the run's last character as context. -/
theorem subAuxF_run_skip (r : Rule) :
    ∀ (w : List Char), w ≠ [] → (∀ c ∈ w, isWordChar c = true) →
      ∀ (tail : List Char) (prev : Option Char) (fuel : Nat),
        matchRest r prev (w ++ tail) = none →
        (w ++ tail).length ≤ fuel →
        subAuxF r fuel prev (w ++ tail) =
          (w ++ (subAuxF r (fuel - w.length) (some (w.getLastD 'a')) tail).1,
            (subAuxF r (fuel - w.length) (some (w.getLastD 'a')) tail).2) := by
  intro w
  induction w with
  | nil => intro h; exact absurd rfl h
  | cons c w1 ih =>
    intro _ hww tail prev fuel hm hf
    cases fuel with
    | zero =>
      exfalso
      simp only [List.length_append, List.length_cons] at hf
      omega
    | succ m =>
      rw [List.cons_append] at hm ⊢
      rw [subAuxF_skip r m prev c (w1 ++ tail) hm]
      cases w1 with
      | nil =>
        simp only [List.nil_append]
        have h1 : ((c :: [] : List Char).getLastD 'a') = c := rfl
        have h2 : m + 1 - (c :: [] : List Char).length = m := by simp
        rw [h1, h2]
        simp
      | cons c2 w2 =>
        have hm2 : matchRest r (some c) ((c2 :: w2) ++ tail) = none := by
          rw [List.cons_append]
          exact matchRest_word_word r c c2 (hww c (by simp)) (hww c2 (by simp))
            (w2 ++ tail)
        have hfu : ((c2 :: w2) ++ tail).length ≤ m := by
          simp only [List.length_append, List.length_cons] at hf ⊢
          omega
        have hih := ih (by simp) (fun x hx => hww x (by simp [hx])) tail (some c) m
          hm2 hfu
        rw [hih]
        have hgl : ((c :: c2 :: w2 : List Char).getLastD 'a') =
            ((c2 :: w2 : List Char).getLastD 'a') := by
          rw [List.getLastD_cons]
          exact getLastD_irrel _ (by simp) c 'a'
        have hfu2 : m + 1 - (c :: c2 :: w2 : List Char).length =
            m - (c2 :: w2 : List Char).length := by
          simp only [List.length_cons]
          omega
        rw [hgl, hfu2]
        simp [List.cons_append]

/-- A separator character after which no member-access match starts (either
the rule is not member access, or the character is not `.`, or the following
token is not a run equal to the literal) admits no match at all. -/
theorem matchRest_sep_none (r : Rule) (hlitne : r.lit ≠ [])
    (hlitw : ∀ x ∈ r.lit, isWordChar x = true) (prev : Option Char)
    (c : Char) (hcw : isWordChar c = false) (rest : TList) (hwfr : Wf rest)
    (hnof : ¬(r.shape = Shape.propAccess ∧ c = '.' ∧
      ∃ w2 rest2, rest = TList.run w2 rest2 ∧ w2 = r.lit)) :
    matchRest r prev (c :: detok rest) = none := by
  by_cases hsh : r.shape = Shape.propAccess
  · by_cases hcdot : c = '.'
    · subst hcdot
      cases rest with
      | nil =>
        have h0 : stripLit r.lit ([] : List Char) = none :=
          stripLit_none_boundary r.lit hlitne hlitw [] rfl
        simp [matchRest, hsh, detok, h0]
      | sep c2 rest2 =>
        obtain ⟨hc2, -⟩ := hwfr
        have h0 : stripLit r.lit (c2 :: detok rest2) = none :=
          stripLit_cons_none r.lit hlitne hlitw c2 hc2 (detok rest2)
        simp [matchRest, hsh, detok, h0]
      | run w2 rest2 =>
        obtain ⟨hwne2, hww2, hss2, hwf2⟩ := hwfr
        have hne : w2 ≠ r.lit := fun h => hnof ⟨hsh, rfl, w2, rest2, rfl, h⟩
        have hu := boundaryAfter_detok rest2 hss2 hwf2
        simp only [detok]
        rw [matchRest_prop_dot r hsh hlitne hlitw prev w2 (detok rest2) hww2 hu]
        simp [hne]
    · exact matchRest_prop_not_dot r hsh prev c hcdot (detok rest)
  · exact matchRest_nonword_nonprop r hsh hlitne hlitw prev c hcw (detok rest)

/-- After a maximal run that is not followed by `:`, the colon check fails. -/
theorem checkColon_detok_none (ts : TList) (hss : SepStart ts)
    (hcol : ¬(headSepChar ts = some ':')) : checkColon (detok ts) = none := by
  cases ts with
  | nil => rfl
  | sep c2 r2 =>
    have h2 : ¬(c2 = ':') := fun h => hcol (by simp [headSepChar, h])
    simp [detok, checkColon, h2]
  | run _ _ => exact absurd hss (by simp [SepStart])

/-- The scan of one rule agrees with the tokenwise action of that rule: on a
well-formed token view, the substitution rewrites exactly the firing runs and
the match count is the number of firing runs.  The hypothesis on `prev` rules
out the impossible context of a run directly preceded by a consumed `.` that
is not in the text. -/
theorem subAuxF_ruleTok (r : Rule) (hlitne : r.lit ≠ [])
    (hlitw : ∀ x ∈ r.lit, isWordChar x = true) :
    ∀ (n : Nat) (ts : TList), tsize ts ≤ n → Wf ts →
      ∀ (prev : Option Char),
        (∀ w rest, ts = TList.run w rest → r.shape = Shape.propAccess →
            prev = some '.' → w ≠ r.lit) →
        ∀ fuel, (detok ts).length ≤ fuel →
          subAuxF r fuel prev (detok ts) =
            (detok (ruleTok r prev ts).1, (ruleTok r prev ts).2) := by
  intro n
  induction n with
  | zero =>
    intro ts hn hwf prev hhd fuel hf
    cases ts with
    | nil => cases fuel <;> rfl
    | sep c rest => simp [tsize] at hn
    | run w rest => simp [tsize] at hn
  | succ n ih =>
    intro ts hn hwf prev hhd fuel hf
    cases ts with
    | nil => cases fuel <;> rfl
    | sep c rest =>
      obtain ⟨hcw, hwfr⟩ := hwf
      cases fuel with
      | zero =>
        exfalso
        simp only [detok, List.length_cons] at hf
        omega
      | succ m =>
        by_cases hfire : r.shape = Shape.propAccess ∧ c = '.' ∧
            ∃ w2 rest2, rest = TList.run w2 rest2 ∧ w2 = r.lit
        · obtain ⟨hsh, hcdot, w2, rest2, hrest, hwl⟩ := hfire
          subst hcdot
          subst hrest
          subst hwl
          obtain ⟨hwne, hww, hss2, hwf2⟩ := hwfr
          have hu : boundaryAfter (detok rest2) = true :=
            boundaryAfter_detok rest2 hss2 hwf2
          have hm : matchRest r prev ('.' :: (r.lit ++ detok rest2)) =
              some (detok rest2) := by
            rw [matchRest_prop_dot r hsh hlitne hlitw prev r.lit (detok rest2) hww hu]
            simp
          simp only [detok]
          rw [subAuxF_match r m prev _ _ (by simp) hm]
          have hts : tsize rest2 ≤ n := by
            simp only [tsize] at hn
            omega
          have hhd2 : ∀ w' rest', rest2 = TList.run w' rest' →
              r.shape = Shape.propAccess → some (lastOfMatch r) = some '.' →
              w' ≠ r.lit := by
            intro w' rest' heq _ _
            rw [heq] at hss2
            exact absurd hss2 (by simp [SepStart])
          have hfu : (detok rest2).length ≤ m := by
            simp only [detok, List.length_cons, List.length_append] at hf
            omega
          rw [ih rest2 hts hwf2 (some (lastOfMatch r)) hhd2 m hfu]
          have hfires : runFires r (some '.') r.lit (headSepChar rest2) = true := by
            simp [runFires, hsh]
          rw [ruleTok_sepStart r rest2 hss2 (some (lastOfMatch r)) (some 'a')]
          simp [ruleTok, hfires, emit, hsh, detok]
        · have hm : matchRest r prev (c :: detok rest) = none :=
            matchRest_sep_none r hlitne hlitw prev c hcw rest hwfr hfire
          simp only [detok]
          rw [subAuxF_skip r m prev c (detok rest) hm]
          have hts : tsize rest ≤ n := by
            simp only [tsize] at hn
            omega
          have hhd2 : ∀ w' rest', rest = TList.run w' rest' →
              r.shape = Shape.propAccess → some c = some '.' → w' ≠ r.lit := by
            intro w' rest' heq hsh hc hwl
            apply hfire
            refine ⟨hsh, by injection hc, w', rest', heq, hwl⟩
          have hfu : (detok rest).length ≤ m := by
            simp only [detok, List.length_cons] at hf
            omega
          rw [ih rest hts hwfr (some c) hhd2 m hfu]
          simp [ruleTok, detok]
    | run w rest =>
      obtain ⟨hwne, hww, hss, hwfr⟩ := hwf
      have hu : boundaryAfter (detok rest) = true := boundaryAfter_detok rest hss hwfr
      have hwpos : 0 < w.length := List.length_pos.mpr hwne
      cases fuel with
      | zero =>
        exfalso
        simp only [detok, List.length_append] at hf
        omega
      | succ m =>
        simp only [detok] at hf ⊢
        have hts : tsize rest ≤ n := by
          simp only [tsize] at hn
          omega
        have hhdss : ∀ w' rest', rest = TList.run w' rest' →
            r.shape = Shape.propAccess → some (w.getLastD 'a') = some '.' →
            w' ≠ r.lit := by
          intro w' rest' heq _ _
          rw [heq] at hss
          exact absurd hss (by simp [SepStart])
        cases hsh : r.shape with
        | propAccess =>
          have hm : matchRest r prev (w ++ detok rest) = none :=
            matchRest_run_prop r hsh prev w (detok rest) hwne hww
          have hfires : runFires r prev w (headSepChar rest) = false := by
            simp only [runFires, hsh]
            by_cases h1 : w = r.lit
            · have h2 : ¬(prev = some '.') := fun hp => (hhd w rest rfl hsh hp) h1
              simp [h1, h2]
            · simp [h1]
          rw [subAuxF_run_skip r w hwne hww (detok rest) prev (m + 1) hm hf]
          have hfu : (detok rest).length ≤ m + 1 - w.length := by
            simp only [List.length_append] at hf
            omega
          rw [ih rest hts hwfr (some (w.getLastD 'a')) hhdss (m + 1 - w.length) hfu]
          rw [ruleTok_sepStart r rest hss (some (w.getLastD 'a')) (some 'a')]
          simp [ruleTok, hfires, detok]
        | objectKey =>
          by_cases hfi : runFires r prev w (headSepChar rest) = true
          · simp only [runFires, hsh, Bool.and_eq_true, decide_eq_true_eq] at hfi
            obtain ⟨hwl, hbb, hcol⟩ := hfi
            obtain ⟨rest2, hrest⟩ : ∃ rest2, rest = TList.sep ':' rest2 := by
              cases rest with
              | nil => simp [headSepChar] at hcol
              | sep c2 r2 =>
                simp only [headSepChar, Option.some.injEq] at hcol
                exact ⟨r2, by rw [hcol]⟩
              | run _ _ => simp [headSepChar] at hcol
            subst hrest
            obtain ⟨-, hwf2⟩ := hwfr
            have hm : matchRest r prev (w ++ detok (TList.sep ':' rest2)) =
                some (detok rest2) := by
              rw [matchRest_run_obj r hsh hlitne hlitw prev w
                (detok (TList.sep ':' rest2)) hww hu]
              rw [if_pos ⟨hbb, hwl⟩]
              simp [detok, checkColon]
            rw [subAuxF_match r m prev _ _
              (fun h => hwne (List.append_eq_nil.mp h).1) hm]
            have hlast : lastOfMatch r = ':' := by simp [lastOfMatch, hsh]
            rw [hlast]
            have hts2 : tsize rest2 ≤ n := by
              simp only [tsize] at hn
              omega
            have hhd2 : ∀ w' rest', rest2 = TList.run w' rest' →
                r.shape = Shape.propAccess → some ':' = some '.' → w' ≠ r.lit := by
              intro w' rest' _ _ hc
              exact absurd (by injection hc) (by decide)
            have hfu : (detok rest2).length ≤ m := by
              simp only [detok, List.length_append, List.length_cons] at hf
              omega
            rw [ih rest2 hts2 hwf2 (some ':') hhd2 m hfu]
            have hfires : runFires r prev w (headSepChar (TList.sep ':' rest2)) = true := by
              simp [runFires, hsh, hwl, hbb, headSepChar]
            simp [ruleTok, hfires, emit, hsh, detok]
          · have hfiF : runFires r prev w (headSepChar rest) = false := by
              cases hb : runFires r prev w (headSepChar rest)
              · rfl
              · exact absurd hb hfi
            have hm : matchRest r prev (w ++ detok rest) = none := by
              rw [matchRest_run_obj r hsh hlitne hlitw prev w (detok rest) hww hu]
              by_cases hc : boundaryBefore prev = true ∧ w = r.lit
              · rw [if_pos hc]
                have hcol : ¬(headSepChar rest = some ':') := by
                  intro h
                  apply hfi
                  simp [runFires, hsh, hc.1, hc.2, h]
                exact checkColon_detok_none rest hss hcol
              · rw [if_neg hc]
            rw [subAuxF_run_skip r w hwne hww (detok rest) prev (m + 1) hm hf]
            have hfu : (detok rest).length ≤ m + 1 - w.length := by
              simp only [List.length_append] at hf
              omega
            rw [ih rest hts hwfr (some (w.getLastD 'a')) hhdss (m + 1 - w.length) hfu]
            rw [ruleTok_sepStart r rest hss (some (w.getLastD 'a')) (some 'a')]
            simp [ruleTok, hfiF, detok]
        | bareIdent =>
          by_cases hfi : runFires r prev w (headSepChar rest) = true
          · simp only [runFires, hsh, Bool.and_eq_true, decide_eq_true_eq] at hfi
            obtain ⟨hwl, hbb⟩ := hfi
            have hm : matchRest r prev (w ++ detok rest) = some (detok rest) := by
              rw [matchRest_run_var r hsh hlitne hlitw prev w (detok rest) hww hu]
              rw [if_pos ⟨hbb, hwl⟩]
            rw [subAuxF_match r m prev _ _
              (fun h => hwne (List.append_eq_nil.mp h).1) hm]
            have hhd2 : ∀ w' rest', rest = TList.run w' rest' →
                r.shape = Shape.propAccess → some (lastOfMatch r) = some '.' →
                w' ≠ r.lit := by
              intro w' rest' heq _ _
              rw [heq] at hss
              exact absurd hss (by simp [SepStart])
            have hfu : (detok rest).length ≤ m := by
              simp only [List.length_append] at hf
              omega
            rw [ih rest hts hwfr (some (lastOfMatch r)) hhd2 m hfu]
            rw [ruleTok_sepStart r rest hss (some (lastOfMatch r)) (some 'a')]
            have hfires : runFires r prev w (headSepChar rest) = true := by
              simp [runFires, hsh, hwl, hbb]
            simp [ruleTok, hfires, emit, hsh, detok]
          · have hfiF : runFires r prev w (headSepChar rest) = false := by
              cases hb : runFires r prev w (headSepChar rest)
              · rfl
              · exact absurd hb hfi
            have hm : matchRest r prev (w ++ detok rest) = none := by
              rw [matchRest_run_var r hsh hlitne hlitw prev w (detok rest) hww hu]
              rw [if_neg (fun hc => hfi (by simp [runFires, hsh, hc.1, hc.2]))]
            rw [subAuxF_run_skip r w hwne hww (detok rest) prev (m + 1) hm hf]
            have hfu : (detok rest).length ≤ m + 1 - w.length := by
              simp only [List.length_append] at hf
              omega
            rw [ih rest hts hwfr (some (w.getLastD 'a')) hhdss (m + 1 - w.length) hfu]
            rw [ruleTok_sepStart r rest hss (some (w.getLastD 'a')) (some 'a')]
            simp [ruleTok, hfiF, detok]

/-- The tokenwise action does not change the following separator. -/
theorem headSepChar_mapRun (rs : List Rule) (p : Option Char) (ts : TList) :
    headSepChar (mapRun rs p ts) = headSepChar ts := by
  cases ts <;> rfl

/-- The empty rule list acts as the identity tokenwise. -/
theorem mapRun_nil : ∀ (p : Option Char) (ts : TList), mapRun [] p ts = ts := by
  intro p ts
  induction ts generalizing p with
  | nil => rfl
  | sep c rest ih => simp [mapRun, ih]
  | run w rest ih => simp [mapRun, pipeRun, ih]

/-- Peeling one rule off a run pipeline. -/
theorem pipeRun_cons (r : Rule) (rs : List Rule) (p q : Option Char)
    (w : List Char) :
    pipeRun (r :: rs) p q w = pipeRun rs p q (stepRun r p q w) := rfl

/-- Appending one rule to a run pipeline. -/
theorem pipeRun_append_one (rs : List Rule) (r : Rule) (p q : Option Char)
    (w : List Char) :
    pipeRun (rs ++ [r]) p q w = stepRun r p q (pipeRun rs p q w) := by
  simp [pipeRun, List.foldl_append]

/-- One more rule applied tokenwise after a pipeline is the extended
pipeline. -/
theorem ruleTok_mapRun (r : Rule) (rs : List Rule) :
    ∀ (ts : TList) (p : Option Char),
      (ruleTok r p (mapRun rs p ts)).1 = mapRun (rs ++ [r]) p ts := by
  intro ts
  induction ts with
  | nil => intro p; rfl
  | sep c rest ih =>
    intro p
    simp only [mapRun, ruleTok]
    rw [ih (some c)]
  | run w rest ih =>
    intro p
    simp only [mapRun, ruleTok]
    rw [headSepChar_mapRun, pipeRun_append_one]
    by_cases hfi : runFires r p (pipeRun rs p (headSepChar rest) w)
        (headSepChar rest) = true
    · simp [hfi, stepRun, ih (some 'a')]
    · have hfiF : runFires r p (pipeRun rs p (headSepChar rest) w)
          (headSepChar rest) = false := by
        cases hb : runFires r p (pipeRun rs p (headSepChar rest) w) (headSepChar rest)
        · rfl
        · exact absurd hb hfi
      simp [hfiF, stepRun, ih (some 'a')]

/-- Folding the rules one after another equals the tokenwise pipeline. -/
theorem foldTok_eq_mapRun :
    ∀ (rs : List Rule) (ts : TList), foldTok rs ts = mapRun rs none ts := by
  intro rs
  induction rs using List.reverseRecOn with
  | nil => intro ts; exact (mapRun_nil none ts).symm
  | append_singleton rs r ih =>
    intro ts
    have h1 : foldTok (rs ++ [r]) ts = (ruleTok r none (foldTok rs ts)).1 := by
      simp [foldTok, List.foldl_append]
    rw [h1, ih ts, ruleTok_mapRun r rs ts none]

/-- A pipeline of table rules keeps a run a nonempty word. -/
theorem pipeRun_word (rs : List Rule) :
    ∀ (w : List Char), (∀ r ∈ rs, RuleOK r) → w ≠ [] →
      (∀ c ∈ w, isWordChar c = true) →
      ∀ (p q : Option Char),
        pipeRun rs p q w ≠ [] ∧ ∀ c ∈ pipeRun rs p q w, isWordChar c = true := by
  induction rs with
  | nil => intro w _ hne hw p q; exact ⟨hne, hw⟩
  | cons r rs ih =>
    intro w hok hne hw p q
    rw [pipeRun_cons]
    obtain ⟨-, -, hrne, hrw, -⟩ := hok r (List.mem_cons_self r rs)
    have hok' : ∀ x ∈ rs, RuleOK x := fun x hx => hok x (List.mem_cons_of_mem r hx)
    by_cases hfi : runFires r p w q = true
    · have : stepRun r p q w = r.repl := by simp [stepRun, hfi]
      rw [this]
      exact ih r.repl hok' hrne hrw p q
    · have : stepRun r p q w = w := by
        have hb : runFires r p w q = false := by
          cases hx : runFires r p w q
          · rfl
          · exact absurd hx hfi
        simp [stepRun, hb]
      rw [this]
      exact ih w hok' hne hw p q

/-- The tokenwise action preserves the no-leading-run property. -/
theorem sepStart_mapRun (rs : List Rule) (p : Option Char) (ts : TList)
    (hss : SepStart ts) : SepStart (mapRun rs p ts) := by
  cases ts with
  | nil => trivial
  | sep c rest => trivial
  | run w rest => exact absurd hss (by simp [SepStart])

/-- The tokenwise action preserves well-formedness. -/
theorem mapRun_wf (rs : List Rule) (hok : ∀ r ∈ rs, RuleOK r) :
    ∀ (ts : TList) (p : Option Char), Wf ts → Wf (mapRun rs p ts) := by
  intro ts
  induction ts with
  | nil => intro p _; trivial
  | sep c rest ih =>
    intro p hwf
    obtain ⟨hc, hr⟩ := hwf
    exact ⟨hc, ih (some c) hr⟩
  | run w rest ih =>
    intro p hwf
    obtain ⟨hwne, hww, hss, hr⟩ := hwf
    obtain ⟨h1, h2⟩ := pipeRun_word rs w hok hwne hww p (headSepChar rest)
    exact ⟨h1, h2, sepStart_mapRun rs (some 'a') rest hss, ih (some 'a') hr⟩

/-- No rule's replacement core is any rule's literal (all replacements contain
an underscore and no capital, all literals are capitalised and underscore
free). -/
theorem repl_ne_lit : ∀ r1 ∈ ALL_PATTERNS, ∀ r2 ∈ ALL_PATTERNS,
    r1.repl ≠ r2.lit := by decide

/-- A run on which no rule fires is fixed by the pipeline. -/
theorem pipeRun_fixed (rs : List Rule) :
    ∀ (v : List Char) (p q : Option Char),
      (∀ r ∈ rs, runFires r p v q = false) → pipeRun rs p q v = v := by
  induction rs with
  | nil => intro v p q _; rfl
  | cons r rs ih =>
    intro v p q h
    rw [pipeRun_cons]
    have : stepRun r p q v = v := by
      simp [stepRun, h r (List.mem_cons_self r rs)]
    rw [this]
    exact ih v p q (fun x hx => h x (List.mem_cons_of_mem r hx))

/-- After a pipeline of table rules, a run is either untouched with no rule of
the pipeline firing on it, or it is some rule's replacement core. -/
theorem pipeRun_result (rs : List Rule) :
    (∀ r ∈ rs, r ∈ ALL_PATTERNS) →
    ∀ (p q : Option Char) (w : List Char),
      (pipeRun rs p q w = w ∧ ∀ r ∈ rs, runFires r p w q = false) ∨
      (∃ r1 ∈ ALL_PATTERNS, pipeRun rs p q w = r1.repl) := by
  induction rs with
  | nil => intro _ p q w; left; exact ⟨rfl, by simp⟩
  | cons r rs ih =>
    intro hsub p q w
    have hsub' : ∀ x ∈ rs, x ∈ ALL_PATTERNS :=
      fun x hx => hsub x (List.mem_cons_of_mem r hx)
    have hrALL : r ∈ ALL_PATTERNS := hsub r (List.mem_cons_self r rs)
    rw [pipeRun_cons]
    by_cases hfi : runFires r p w q = true
    · right
      have hstep : stepRun r p q w = r.repl := by simp [stepRun, hfi]
      rw [hstep]
      have hnof : ∀ r2 ∈ rs, runFires r2 p r.repl q = false := by
        intro r2 h2
        have hne : r.repl ≠ r2.lit := repl_ne_lit r hrALL r2 (hsub' r2 h2)
        simp [runFires, hne]
      rw [pipeRun_fixed rs r.repl p q hnof]
      exact ⟨r, hrALL, rfl⟩
    · have hfiF : runFires r p w q = false := by
        cases hb : runFires r p w q
        · rfl
        · exact absurd hb hfi
      have hstep : stepRun r p q w = w := by simp [stepRun, hfiF]
      rw [hstep]
      rcases ih hsub' p q w with ⟨he, hall⟩ | ⟨r1, h1, he⟩
      · left
        refine ⟨he, ?_⟩
        intro r2 h2
        rcases List.mem_cons.mp h2 with rfl | h3
        · exact hfiF
        · exact hall r2 h3
      · right
        exact ⟨r1, h1, he⟩

/-- After the full pipeline, no table rule fires on any run value. -/
theorem runFires_final (p q : Option Char) (w : List Char) :
    ∀ r ∈ ALL_PATTERNS, runFires r p (pipeRun ALL_PATTERNS p q w) q = false := by
  intro r hr
  rcases pipeRun_result ALL_PATTERNS (fun x hx => hx) p q w with
    ⟨he, hall⟩ | ⟨r1, h1, he⟩
  · rw [he]
    exact hall r hr
  · rw [he]
    have hne := repl_ne_lit r1 h1 r hr
    simp [runFires, hne]

/-- The pipeline output is a fixed point of every table rule, tokenwise. -/
theorem ruleTok_mapRun_all (r : Rule) (hr : r ∈ ALL_PATTERNS) :
    ∀ (ts : TList) (p : Option Char),
      ruleTok r p (mapRun ALL_PATTERNS p ts) = (mapRun ALL_PATTERNS p ts, 0) := by
  intro ts
  induction ts with
  | nil => intro p; rfl
  | sep c rest ih =>
    intro p
    simp [mapRun, ruleTok, ih (some c)]
  | run w rest ih =>
    intro p
    simp only [mapRun, ruleTok]
    rw [headSepChar_mapRun]
    have hnof := runFires_final p (headSepChar rest) w r hr
    simp [hnof, ih (some 'a')]

/-- One rule tokenwise is the one-element pipeline. -/
theorem ruleTok_one (r : Rule) (ts : TList) :
    (ruleTok r none ts).1 = mapRun [r] none ts := by
  have h := ruleTok_mapRun r [] ts none
  rw [mapRun_nil] at h
  simpa using h

/-- One rule tokenwise preserves well-formedness. -/
theorem ruleTok_wf (r : Rule) (hok : RuleOK r) (ts : TList) (hwf : Wf ts) :
    Wf (ruleTok r none ts).1 := by
  rw [ruleTok_one]
  refine mapRun_wf [r] ?_ ts none hwf
  intro x hx
  rw [List.mem_singleton] at hx
  subst hx
  exact hok

/-- The text part of a group application is the tokenwise fold. -/
theorem applyGroup_detok :
    ∀ (rs : List Rule), (∀ r ∈ rs, RuleOK r) →
      ∀ (ts : TList), Wf ts → ∀ n0,
        (applyGroup rs (detok ts, n0)).1 = detok (foldTok rs ts) := by
  intro rs
  induction rs with
  | nil => intro _ ts _ n0; rfl
  | cons r rs ih =>
    intro hok ts hwf n0
    obtain ⟨hlitne, hlitw, -, -, -⟩ := hok r (List.mem_cons_self r rs)
    have hok' : ∀ x ∈ rs, RuleOK x := fun x hx => hok x (List.mem_cons_of_mem r hx)
    have hcom := subAuxF_ruleTok r hlitne hlitw (tsize ts) ts le_rfl hwf none
      (fun w rest _ _ hp => Option.noConfusion hp) (detok ts).length le_rfl
    have hsub : re_sub r (detok ts) = detok (ruleTok r none ts).1 :=
      congrArg Prod.fst hcom
    have hwf1 : Wf (ruleTok r none ts).1 :=
      ruleTok_wf r (hok r (List.mem_cons_self r rs)) ts hwf
    have hfold : foldTok (r :: rs) ts = foldTok rs ((ruleTok r none ts).1) := rfl
    rw [hfold]
    by_cases hnew : re_sub r (detok ts) = detok ts
    · rw [applyGroup_cons, if_pos hnew]
      have hts2 : detok ((ruleTok r none ts).1) = detok ts := by rw [← hsub, hnew]
      rw [← hts2]
      exact ih hok' ((ruleTok r none ts).1) hwf1 n0
    · rw [applyGroup_cons, if_neg hnew, hsub]
      exact ih hok' ((ruleTok r none ts).1) hwf1
        (n0 + re_findall_count r (detok ts))

/-- On a token view that is a fixed point of every rule, the whole group
application changes nothing. -/
theorem applyGroup_clean :
    ∀ (rs : List Rule), (∀ r ∈ rs, RuleOK r) →
      ∀ (ts : TList), Wf ts →
        (∀ r ∈ rs, ruleTok r none ts = (ts, 0)) →
        ∀ n0, applyGroup rs (detok ts, n0) = (detok ts, n0) := by
  intro rs
  induction rs with
  | nil => intro _ ts _ _ n0; rfl
  | cons r rs ih =>
    intro hok ts hwf hclean n0
    obtain ⟨hlitne, hlitw, -, -, -⟩ := hok r (List.mem_cons_self r rs)
    have hcom := subAuxF_ruleTok r hlitne hlitw (tsize ts) ts le_rfl hwf none
      (fun w rest _ _ hp => Option.noConfusion hp) (detok ts).length le_rfl
    rw [hclean r (List.mem_cons_self r rs)] at hcom
    have hsub : re_sub r (detok ts) = detok ts := congrArg Prod.fst hcom
    rw [applyGroup_cons, if_pos hsub]
    exact ih (fun x hx => hok x (List.mem_cons_of_mem r hx)) ts hwf
      (fun x hx => hclean x (List.mem_cons_of_mem r hx)) n0

/-- C1: the full rewrite is idempotent: applying the three-group substitution
pipeline to its own output returns that output unchanged, with change count 0
on the second application. -/
theorem claim_C1 (s : List Char) :
    fix_content ((fix_content s).1) = ((fix_content s).1, 0) := by
  obtain ⟨ts, hwf, hd⟩ := exists_tok s
  subst hd
  have h1 : (fix_content (detok ts)).1 = detok (mapRun ALL_PATTERNS none ts) := by
    rw [fix_content_eq_all]
    have h0 := applyGroup_detok ALL_PATTERNS all_rules_ok ts hwf 0
    rwa [foldTok_eq_mapRun] at h0
  have hwfF : Wf (mapRun ALL_PATTERNS none ts) :=
    mapRun_wf ALL_PATTERNS all_rules_ok ts none hwf
  have hclean : ∀ r ∈ ALL_PATTERNS,
      ruleTok r none (mapRun ALL_PATTERNS none ts) =
        (mapRun ALL_PATTERNS none ts, 0) :=
    fun r hr => ruleTok_mapRun_all r hr ts none
  rw [h1, fix_content_eq_all]
  exact applyGroup_clean ALL_PATTERNS all_rules_ok (mapRun ALL_PATTERNS none ts)
    hwfF hclean 0
